import Mathlib

/-!
Verification of the recommendation/selection engine of the DBD build optimizer
(`src/App.tsx`): the name normalizer, the mutex model, the scoring function,
the greedy build selector (`runOptimize`, called `selectBuild` in the design
document) and the constrained random build generator (`makeRandomBuild`,
called `randomBuild`).

Modelling conventions:
- JavaScript numbers are modelled as exact rationals (`ℚ`); every constant the
  engine uses (10, 8, -12, -100, tier values, 2.5, 3, 0.01) is an exact
  binary/decimal value, so no claim here depends on floating-point rounding.
- The ECMAScript built-ins `toLowerCase` and `normalize("NFKD")` are modelled
  per code point with tables that are faithful to the Unicode data for every
  character appearing in this development (all of ASCII, plus the tabulated
  non-ASCII characters); other characters are left unchanged.
- `Array.prototype.sort` with the comparator `score(b) - score(a)` is modelled
  as a stable sort by descending score (ECMAScript requires the result to be
  stably sorted; the algorithm itself is implementation-defined), and the
  `shuffle` used by `makeRandomBuild` is an unbiased Fisher-Yates shuffle, so
  its outcomes are exactly the permutations of the pool: theorems about the
  random generator quantify over every permutation of the pool.
-/

namespace DBD

/-- Role of a perk: the two-value enumeration `type Role = "survivor" | "killer"`. -/
inductive Role
  | survivor
  | killer
deriving DecidableEq

/-- Value of the loosely typed `meta.rate` field: a number or a string, the two
shapes `getRate` distinguishes. -/
inductive RateVal
  | num (q : ℚ)
  | str (s : String)
deriving DecidableEq

/-- Entry of `meta.topForKillers` (type `TopFor` in the source): `{slug, rank?, usage?}`.
The `usage` field is never read by the scoring code and is omitted. -/
structure TopFor where
  slug : String
  rank : Option ℚ := none
deriving DecidableEq

/-- Perk (catalog item) from the source. The loosely typed `meta` record is flattened
into the optional fields `tier`, `rate` and `topForKillers`, the only `meta` entries
the engine reads. Absent optional arrays are modelled as `[]`, matching
`p.synergy || []` and `p.anti_synergy || []` in the source. -/
structure Perk where
  id : String
  name : String
  role : Role
  tags : List String
  synergy : List String := []
  anti_synergy : List String := []
  tier : Option String := none
  rate : Option RateVal := none
  topForKillers : List TopFor := []
deriving DecidableEq

/-- The subset of the `Settings` record consumed by the selection engine. -/
structure Settings where
  role : Role
  selectedTags : List String := []
  locked : List String := []
  banned : List String := []
  killerFocus : String := ""
deriving DecidableEq

/-! ### Name normalizer -/

/-- Per-code-point model of `String.prototype.toLowerCase`. Faithful to Unicode on
ASCII; of the non-ASCII characters used in this development, the tabulated accented
capitals map to their lowercase forms and the rest (such as U+2102, DOUBLE-STRUCK
CAPITAL C, which has no Unicode lowercase mapping) are left unchanged. -/
def jsLowerChar (c : Char) : List Char :=
  if 'A' ≤ c ∧ c ≤ 'Z' then [Char.ofNat (c.toNat + 32)]
  else if c = 'É' then ['é']
  else if c = 'À' then ['à']
  else [c]

/-- Per-code-point model of the compatibility decomposition performed by
`String.prototype.normalize("NFKD")` (the modelled characters need no canonical
reordering). ASCII characters are NFKD-inert; `é`/`à` decompose into the base letter
followed by a combining accent; U+2102 has the compatibility decomposition `C`. -/
def nfkdChar (c : Char) : List Char :=
  if c = 'é' then ['e', Char.ofNat 0x301]
  else if c = 'à' then ['a', Char.ofNat 0x300]
  else if c = 'ℂ' then ['C']
  else [c]

/-- Combining marks stripped by the source regex: the range U+0300 to U+036F. -/
def isCombining (c : Char) : Bool :=
  decide (0x300 ≤ c.toNat) && decide (c.toNat ≤ 0x36F)

/-- List-of-characters body of `normalize`. -/
def normalizeChars (l : List Char) : List Char :=
  ((l.flatMap jsLowerChar).flatMap nfkdChar).filter (fun c => !isCombining c)

/-- Function `normalize` from the source:
lowercase, then NFKD decomposition, then strip the combining marks U+0300-U+036F. -/
def normalize (s : String) : String := ⟨normalizeChars s.data⟩

/-! ### Rate parsing (`getRate`) -/

/-- Whitespace skipped by `parseFloat` before the number (the common ECMAScript
whitespace characters). -/
def jsWhitespace (c : Char) : Bool :=
  c = ' ' || c = '\t' || c = '\n' || c = '\r' ||
    c = Char.ofNat 0x0B || c = Char.ofNat 0x0C || c = Char.ofNat 0xA0 ||
    c = Char.ofNat 0xFEFF

/-- Split a character list into its leading run of decimal digits and the rest. -/
def spanDigits : List Char → List Char × List Char
  | [] => ([], [])
  | c :: cs =>
    if c.isDigit then
      let p := spanDigits cs
      (c :: p.1, p.2)
    else ([], c :: cs)

/-- Value of a digit run. -/
def digitsToNat (ds : List Char) : Nat :=
  ds.foldl (fun a c => a * 10 + (c.toNat - 48)) 0

/-- Powers of ten in `ℚ`, kept kernel-computable. -/
def tenPow : Nat → ℚ
  | 0 => 1
  | n + 1 => 10 * tenPow n

/-- Negative and nonnegative powers of ten. -/
def pow10Z : ℤ → ℚ
  | .ofNat n => tenPow n
  | .negSucc n => 1 / tenPow (n + 1)

/-- Decimal significand prefix of `parseFloat`: `Digits ['.' Digits?] | '.' Digits`;
returns its value and the unconsumed suffix, or `none` when no digit is present. -/
def parseSig (cs : List Char) : Option (ℚ × List Char) :=
  let ip := spanDigits cs
  match ip.2 with
  | '.' :: r2 =>
    let fp := spanDigits r2
    if ip.1 = [] ∧ fp.1 = [] then none
    else some ((digitsToNat ip.1 : ℚ) + (digitsToNat fp.1 : ℚ) / tenPow fp.1.length, fp.2)
  | _ => if ip.1 = [] then none else some ((digitsToNat ip.1 : ℚ), ip.2)

/-- Leading digit run as a number, or `none` when absent. -/
def parseExpDigits (cs : List Char) : Option Nat :=
  let d := spanDigits cs
  if d.1 = [] then none else some (digitsToNat d.1)

/-- Signed digits of an exponent; a marker not followed by digits is not part of the
longest valid prefix and contributes exponent 0. -/
def parseSignedExp (r : List Char) : ℤ :=
  match r with
  | '+' :: r2 => (((parseExpDigits r2).getD 0 : Nat) : ℤ)
  | '-' :: r2 => -(((parseExpDigits r2).getD 0 : Nat) : ℤ)
  | _ => (((parseExpDigits r).getD 0 : Nat) : ℤ)

/-- Exponent part of the longest valid `parseFloat` prefix. -/
def parseExp (cs : List Char) : ℤ :=
  match cs with
  | 'e' :: r => parseSignedExp r
  | 'E' :: r => parseSignedExp r
  | _ => 0

/-- Number parsed after an optional sign; the literal `Infinity` parses as a
non-finite value, which `Number.isFinite` rejects. -/
def parseAfterSign (sign : ℚ) (cs : List Char) : Option ℚ :=
  match cs with
  | 'I' :: 'n' :: 'f' :: 'i' :: 'n' :: 'i' :: 't' :: 'y' :: _ => none
  | _ =>
    match parseSig cs with
    | none => none
    | some vr => some (sign * vr.1 * pow10Z (parseExp vr.2))

/-- Model of `parseFloat(s)` restricted to the outcomes `getRate` keeps: `some q`
exactly when `parseFloat` returns the finite number `q`; `none` models `NaN` and
infinities (both rejected by `Number.isFinite`). -/
def jsParseFloatFinite (s : String) : Option ℚ :=
  match s.data.dropWhile jsWhitespace with
  | '+' :: r => parseAfterSign 1 r
  | '-' :: r => parseAfterSign (-1) r
  | r => parseAfterSign 1 r

/-- First-occurrence replacement performed by `r.replace(",", ".")` (with a string
pattern, JavaScript `replace` rewrites only the first match). -/
def replaceCommaChars : List Char → List Char
  | [] => []
  | c :: cs => if c = ',' then '.' :: cs else c :: replaceCommaChars cs

/-- String wrapper of `replaceCommaChars`. -/
def replaceCommaFirst (s : String) : String := ⟨replaceCommaChars s.data⟩

/-- Function `getRate` from the source. -/
def getRate (p : Perk) : Option ℚ :=
  match p.rate with
  | some (.num r) => some r
  | some (.str s) => jsParseFloatFinite (replaceCommaFirst s)
  | none => none

/-! ### Scoring components -/

/-- Function `clamp` from the source. -/
def clamp (n mn mx : ℚ) : ℚ := max mn (min mx n)

/-- Function `rateBonus` from the source; `2.5` is the exact rational `5/2`. -/
def rateBonus (p : Perk) : ℚ :=
  match getRate p with
  | none => 0
  | some r => (clamp r 0 5 - 5/2) * 3

/-- Table `TIER_BONUS` from the source. -/
def TIER_BONUS : List (String × ℚ) :=
  [("S", 10), ("A", 6), ("B", 3), ("C", 0), ("D", -2), ("E", -4), ("F", -6)]

/-- ASCII uppercase mapping (tier labels are single letters, so the ASCII fragment of
`toUpperCase` is faithful here). -/
def jsUpperChar (c : Char) : Char :=
  if 'a' ≤ c ∧ c ≤ 'z' then Char.ofNat (c.toNat - 32) else c

/-- String wrapper of `jsUpperChar`. -/
def toUpperJs (s : String) : String := ⟨s.data.map jsUpperChar⟩

/-- Function `tierBonus` from the source: a non-string `meta.tier` yields key `""`,
and keys outside the table contribute 0. -/
def tierBonus (p : Perk) : ℚ :=
  match TIER_BONUS.lookup (match p.tier with | some s => toUpperJs s | none => "") with
  | some v => v
  | none => 0

/-- Function `killerFocusBonus` from the source; the empty slug is falsy and a missing
rank defaults to 99 through `Number(hit.rank ?? 99)`. -/
def killerFocusBonus (p : Perk) (slug : String) : ℚ :=
  if slug = "" then 0
  else
    match p.topForKillers.find? (fun x => x.slug == slug) with
    | none => 0
    | some hit => max 0 (14 - ((hit.rank.getD 99) - 1) * 2)

/-! ### Mutex model -/

/-- Table `MUTEX_TAGS` from the source. -/
def MUTEX_TAGS : Role → List String
  | .survivor => ["exhaustion"]
  | .killer => ["scourge_hook"]

/-- The `candidateHasMutex` test of `hasMutexConflict` (identically `hasMutexTag`
inside `scorePerk`): the perk holds some normalized mutex tag of its own role. -/
def hasMutexTag (p : Perk) : Bool :=
  (p.tags.map normalize).any (fun t => ((MUTEX_TAGS p.role).map normalize).contains t)

/-- Function `hasMutexConflict` from the source: the candidate must itself hold a mutex
tag of its own role, and some already-picked perk must share such a tag; the picked
perk's own role is never consulted. -/
def hasMutexConflict (candidate : Perk) (picked : List Perk) : Bool :=
  if !hasMutexTag candidate then false
  else
    picked.any (fun x =>
      (x.tags.map normalize).any (fun t =>
        (candidate.tags.map normalize).contains t &&
          ((MUTEX_TAGS candidate.role).map normalize).contains t))

/-! ### Scoring function -/

/-- The context object literal `runOptimize` passes to `scorePerk`. -/
structure ScoreCtx where
  role : Role
  tags : List String
  locked : List String
  banned : List String
  current : List Perk
  killerFocus : String := ""

/-- Ban test shared by `scorePerk`, `isBannedPerk` and the local `isBanned` of
`runOptimize`: some banned entry normalizes to the name or to the id. -/
def bannedMatch (banned : List String) (name id : String) : Bool :=
  banned.any (fun b => normalize b == normalize name || normalize b == normalize id)

/-- Component 1 of `scorePerk`: +10 per selected tag present (normalized) in the
candidate's tags. -/
def tagScore (p : Perk) (tags : List String) : ℚ :=
  10 * ((tags.filter (fun t => (p.tags.map normalize).contains (normalize t))).length : ℚ)

/-- Component 2 of `scorePerk`: +8 per locked or current name (normalized) found in
the candidate's `synergy` list. -/
def synScore (p : Perk) (locked : List String) (current : List Perk) : ℚ :=
  8 * (((locked.map normalize ++ current.map (fun c => normalize c.name)).filter
      (fun n => (p.synergy.map normalize).contains n)).length : ℚ)

/-- Component 3 of `scorePerk`: -12 per current name (normalized) found in the
candidate's `anti_synergy` list. -/
def antiScore (p : Perk) (current : List Perk) : ℚ :=
  -12 * (((current.map (fun c => normalize c.name)).filter
      (fun n => (p.anti_synergy.map normalize).contains n)).length : ℚ)

/-- Component 4 of `scorePerk`: the -100 mutex penalty; the inline test in `scorePerk`
is literally the body of `hasMutexConflict`. -/
def mutexPenalty (p : Perk) (current : List Perk) : ℚ :=
  if hasMutexConflict p current then -100 else 0

/-- Component 6 of `scorePerk`: the stability tiebreak
`(100 - Math.min(100, p.name.length)) * 0.01`, with `0.01` the exact `1/100`. -/
def tieBreak (p : Perk) : ℚ := (100 - min 100 (p.name.length : ℚ)) / 100

/-- Function `scorePerk` from the source. -/
def scorePerk (p : Perk) (ctx : ScoreCtx) : ℚ :=
  if p.role ≠ ctx.role then -9999
  else if bannedMatch ctx.banned p.name p.id then -9999
  else
    tagScore p ctx.tags + synScore p ctx.locked ctx.current + antiScore p ctx.current
      + mutexPenalty p ctx.current + tierBonus p + rateBonus p
      + killerFocusBonus p ctx.killerFocus + tieBreak p

/-! ### Greedy build selector (`runOptimize`) -/

/-- Recursion of `dedupeByName`, with the `seen` set of normalized names explicit. -/
def dedupeGo (seen : List String) : List Perk → List Perk
  | [] => []
  | p :: rest =>
    if seen.contains (normalize p.name) then dedupeGo seen rest
    else p :: dedupeGo (normalize p.name :: seen) rest

/-- Function `dedupeByName` from the source: keep the first perk of each normalized
name, preserving order. -/
def dedupeByName (perks : List Perk) : List Perk := dedupeGo [] perks

/-- Lock test from `runOptimize`: some locked entry normalizes to the perk's name or id. -/
def lockedMatch (locked : List String) (p : Perk) : Bool :=
  locked.any (fun n => normalize n == normalize p.name || normalize n == normalize p.id)

/-- Effective locked seed of `runOptimize` before truncation:
`dedupeByName(perks.filter(matches a locked entry and is not banned))`. -/
def lockedEff (perks : List Perk) (s : Settings) : List Perk :=
  dedupeByName (perks.filter (fun p =>
    lockedMatch s.locked p && !bannedMatch s.banned p.name p.id))

/-- Candidate pool of `runOptimize`: same role, not already chosen (by normalized
name), not banned. -/
def optimizePool (perks : List Perk) (s : Settings) (chosen : List Perk) : List Perk :=
  ((perks.filter (fun p => p.role == s.role)).filter
      (fun p => !chosen.any (fun c => normalize c.name == normalize p.name))).filter
    (fun p => !bannedMatch s.banned p.name p.id)

/-- Score context built by `runOptimize` at a given partial build. -/
def scoreCtxOf (s : Settings) (chosen : List Perk) : ScoreCtx :=
  { role := s.role, tags := s.selectedTags, locked := s.locked, banned := s.banned,
    current := chosen, killerFocus := s.killerFocus }

/-- One `pool.sort(...)` call of `runOptimize`: a stable sort by descending score
(`Array.prototype.sort` with comparator `score(b) - score(a)` must produce a stably
sorted result; insertion sort is such a sort and is kernel-computable). -/
def sortPool (s : Settings) (chosen pool : List Perk) : List Perk :=
  pool.insertionSort
    (fun a b => scorePerk b (scoreCtxOf s chosen) ≤ scorePerk a (scoreCtxOf s chosen))

/-- While loop of `runOptimize` with explicit fuel. Each iteration removes exactly one
pool element, so running it with `fuel = pool.length` is the full loop
(`optimizeLoop` below). -/
def optimizeLoopFuel (s : Settings) : Nat → List Perk → List Perk → List Perk
  | 0, chosen, _ => chosen
  | fuel + 1, chosen, pool =>
    if chosen.length < 4 ∧ pool ≠ [] then
      match sortPool s chosen pool with
      | [] => chosen
      | pick :: rest =>
        if -9999 < scorePerk pick (scoreCtxOf s chosen)
        then optimizeLoopFuel s fuel (chosen ++ [pick]) rest
        else optimizeLoopFuel s fuel chosen rest
    else chosen

/-- The `while (chosen.length < 4 && pool.length)` loop of `runOptimize`: sort the pool
by descending score against the current build, shift the best candidate, push it
unless its score is the -9999 sentinel. -/
def optimizeLoop (s : Settings) (chosen pool : List Perk) : List Perk :=
  optimizeLoopFuel s pool.length chosen pool

/-- Function `runOptimize` from the source (the greedy `selectBuild` of the design
document), as a pure function of the catalog and the settings. -/
def runOptimize (perks : List Perk) (s : Settings) : List Perk :=
  let chosen := (lockedEff perks s).take 4
  if 4 ≤ chosen.length then chosen.take 4
  else (optimizeLoop s chosen (optimizePool perks s chosen)).take 4

/-! ### Constrained random build generator (`makeRandomBuild`) -/

/-- Pool of `makeRandomBuild`: role-matching, non-banned, deduplicated by normalized
name. -/
def randPool (perks : List Perk) (role : Role) (banned : List String) : List Perk :=
  dedupeByName (perks.filter (fun p => p.role == role && !bannedMatch banned p.name p.id))

/-- First pass of `makeRandomBuild`: stop at 4, skip mutex conflicts (hard constraint),
skip duplicated normalized names, otherwise push. -/
def randFirstPass (chosen : List Perk) : List Perk → List Perk
  | [] => chosen
  | p :: rest =>
    if 4 ≤ chosen.length then chosen
    else if hasMutexConflict p chosen then randFirstPass chosen rest
    else if chosen.any (fun c => normalize c.name == normalize p.name) then
      randFirstPass chosen rest
    else randFirstPass (chosen ++ [p]) rest

/-- Second, fallback pass of `makeRandomBuild`: mutex is ignored, duplicated names are
still skipped. -/
def randSecondPass (chosen : List Perk) : List Perk → List Perk
  | [] => chosen
  | p :: rest =>
    if 4 ≤ chosen.length then chosen
    else if chosen.any (fun c => normalize c.name == normalize p.name) then
      randSecondPass chosen rest
    else randSecondPass (chosen ++ [p]) rest

/-- Function `makeRandomBuild` from the source (`randomBuild` of the design document),
with the shuffled pool `rnd` passed explicitly; theorems quantify over every `rnd`
that is a permutation of `randPool`, which are exactly the outcomes of the
Fisher-Yates `shuffle`. -/
def makeRandomBuildWith (rnd : List Perk) : List Perk :=
  let chosen := randFirstPass [] rnd
  (if chosen.length < 4 then randSecondPass chosen rnd else chosen).take 4

/-! ### Derived observers -/

/-- Sum of the bonus-capable components of `scorePerk` (tag match, synergy, tier, rate,
focus, tiebreak): the quantity the design document compares against the -100 mutex
penalty. The anti-synergy and mutex components are never positive and are excluded. -/
def posScore (p : Perk) (ctx : ScoreCtx) : ℚ :=
  tagScore p ctx.tags + synScore p ctx.locked ctx.current + tierBonus p + rateBonus p
    + killerFocusBonus p ctx.killerFocus + tieBreak p

/-- Boolean test: the character passes unchanged through every stage of `normalize`
(lowercasing, NFKD decomposition and combining-mark stripping). -/
def inertChar (c : Char) : Bool :=
  jsLowerChar c == [c] && nfkdChar c == [c] && !isCombining c

/-! ### Concrete instances used by counterexamples and witnesses -/

/-- Survivor perk of the design document's Scenario A. -/
def wAlpha : Perk :=
  { id := "alpha", name := "Alpha", role := .survivor, tags := ["chase"],
    tier := some "S" }

/-- Survivor perk of Scenario A with a synergy on `Alpha`. -/
def wBeta : Perk :=
  { id := "beta", name := "Beta", role := .survivor, tags := ["chase"],
    synergy := ["Alpha"], tier := some "B" }

/-- Survivor exhaustion perk of Scenario A. -/
def wGamma : Perk :=
  { id := "gamma", name := "Gamma", role := .survivor, tags := ["exhaustion"],
    tier := some "A" }

/-- Second survivor exhaustion perk of Scenario A. -/
def wDelta : Perk :=
  { id := "delta", name := "Delta", role := .survivor, tags := ["exhaustion"],
    tier := some "S" }

/-- Tagless survivor perk. -/
def wEps : Perk := { id := "eps", name := "Epsilon", role := .survivor, tags := [] }

/-- Another tagless survivor perk. -/
def wZeta : Perk := { id := "zeta", name := "Zeta", role := .survivor, tags := [] }

/-- Settings of Scenario A: survivor role, desired tag `chase`. -/
def wSettings : Settings := { role := .survivor, selectedTags := ["chase"] }

/-- Killer perk locked while the survivor role is selected (cross-role lock). -/
def lockCexPerk : Perk := { id := "bbq", name := "Barbecue", role := .killer, tags := [] }

/-- Settings locking `lockCexPerk` by id while the role is `survivor`. -/
def lockCexSettings : Settings := { role := .survivor, locked := ["bbq"] }

/-- Survivor perk holding the survivor mutex tag `exhaustion`. -/
def mutexCexA : Perk := { id := "a", name := "A", role := .survivor, tags := ["exhaustion"] }

/-- Killer perk that also carries the tag `exhaustion`. -/
def mutexCexB : Perk := { id := "b", name := "B", role := .killer, tags := ["exhaustion"] }

/-- Candidate matching ten desired tags at once. -/
def scoreCexPerk : Perk :=
  { id := "x", name := "x", role := .survivor,
    tags := ["t0", "t1", "t2", "t3", "t4", "t5", "t6", "t7", "t8", "t9"] }

/-- Context desiring the ten tags of `scoreCexPerk`. -/
def scoreCexCtx : ScoreCtx :=
  { role := .survivor,
    tags := ["t0", "t1", "t2", "t3", "t4", "t5", "t6", "t7", "t8", "t9"],
    locked := [], banned := [], current := [] }

/-- Perk named `Alpha`. -/
def dupCexA : Perk := { id := "alpha1", name := "Alpha", role := .survivor, tags := [] }

/-- Perk whose name differs from `dupCexA` only by case. -/
def dupCexB : Perk := { id := "alpha2", name := "ALPHA", role := .survivor, tags := [] }

/-- Plain survivor settings: no tags, locks or bans. -/
def plainSettings : Settings := { role := .survivor }

/-- Perk whose loose `meta.rate` is the string `"3,5"`. -/
def ratePerkW : Perk :=
  { id := "r", name := "R", role := .survivor, tags := [], rate := some (.str "3,5") }

/-- Settings banning `alpha` while `Alpha` and `Beta` are in the catalog. -/
def banWitSettings : Settings := { role := .survivor, banned := ["alpha"] }

/-- Settings locking five distinct survivor perks (Scenario C). -/
def lockFiveSettings : Settings :=
  { role := .survivor, locked := ["alpha", "beta", "gamma", "delta", "eps"] }

/-! ### Lemmas about `dedupeByName` -/

/-- Distinctness of normalized names, the relation `dedupeByName` establishes. -/
def NameNe (a b : Perk) : Prop := normalize a.name ≠ normalize b.name

theorem nameNe_symm : ∀ {a b : Perk}, NameNe a b → NameNe b a :=
  fun h e => h e.symm

theorem dedupeGo_sublist (seen : List String) (l : List Perk) :
    (dedupeGo seen l).Sublist l := by
  induction l generalizing seen with
  | nil => simp [dedupeGo]
  | cons p rest ih =>
    simp only [dedupeGo]
    split
    · exact List.Sublist.cons p (ih seen)
    · exact List.Sublist.cons₂ p (ih _)

theorem mem_of_mem_dedupeGo {seen : List String} {l : List Perk} {p : Perk}
    (h : p ∈ dedupeGo seen l) : p ∈ l :=
  List.Sublist.mem h (dedupeGo_sublist seen l)

theorem dedupeGo_not_seen {seen : List String} {l : List Perk} {q : Perk}
    (h : q ∈ dedupeGo seen l) : seen.contains (normalize q.name) = false := by
  induction l generalizing seen with
  | nil => simp [dedupeGo] at h
  | cons p rest ih =>
    simp only [dedupeGo] at h
    split at h
    · exact ih h
    · rename_i hc
      rcases List.mem_cons.mp h with rfl | h2
      · simpa using hc
      · have h3 := ih h2
        simp only [List.contains_cons, Bool.or_eq_false_iff] at h3
        exact h3.2

theorem dedupeGo_pairwise (seen : List String) (l : List Perk) :
    (dedupeGo seen l).Pairwise NameNe := by
  induction l generalizing seen with
  | nil => simp [dedupeGo]
  | cons p rest ih =>
    simp only [dedupeGo]
    split
    · exact ih seen
    · refine List.Pairwise.cons ?_ (ih _)
      intro q hq
      have h2 := dedupeGo_not_seen hq
      simp only [List.contains_cons, Bool.or_eq_false_iff] at h2
      have h3 : normalize q.name ≠ normalize p.name := by
        simpa using h2.1
      exact fun e => h3 e.symm

theorem dedupeByName_pairwise (l : List Perk) :
    (dedupeByName l).Pairwise NameNe :=
  dedupeGo_pairwise [] l

theorem dedupeGo_name_complete {seen : List String} {l : List Perk} {p : Perk}
    (hp : p ∈ l) (hs : seen.contains (normalize p.name) = false) :
    ∃ q ∈ dedupeGo seen l, normalize q.name = normalize p.name := by
  induction l generalizing seen with
  | nil => simp at hp
  | cons r rest ih =>
    simp only [dedupeGo]
    rcases List.mem_cons.mp hp with rfl | hp2
    · split
      · rename_i hc
        rw [hc] at hs
        exact absurd hs (by simp)
      · exact ⟨p, List.mem_cons_self p _, rfl⟩
    · by_cases hn : normalize r.name = normalize p.name
      · split
        · rename_i hc
          rw [hn, hs] at hc
          exact absurd hc (by simp)
        · exact ⟨r, List.mem_cons_self r _, hn⟩
      · split
        · exact ih hp2 hs
        · have hs2 : (normalize r.name :: seen).contains (normalize p.name) = false := by
            simp only [List.contains_cons, Bool.or_eq_false_iff]
            refine ⟨by simpa using fun e => hn e.symm, hs⟩
          obtain ⟨q, hq, he⟩ := ih hp2 hs2
          exact ⟨q, List.mem_cons_of_mem _ hq, he⟩

theorem dedupeByName_name_complete {l : List Perk} {p : Perk} (hp : p ∈ l) :
    ∃ q ∈ dedupeByName l, normalize q.name = normalize p.name :=
  dedupeGo_name_complete hp (by simp)

/-! ### Lemmas about the mutex model -/

theorem hasMutexTag_iff (p : Perk) :
    hasMutexTag p = true ↔
      ∃ t ∈ p.tags.map normalize, t ∈ (MUTEX_TAGS p.role).map normalize := by
  simp [hasMutexTag]

theorem hasMutexConflict_iff (p : Perk) (picked : List Perk) :
    hasMutexConflict p picked = true ↔
      ∃ x ∈ picked, ∃ t ∈ (x.tags.map normalize),
        t ∈ p.tags.map normalize ∧ t ∈ (MUTEX_TAGS p.role).map normalize := by
  unfold hasMutexConflict
  by_cases hmt : hasMutexTag p
  · simp [hmt]
  · simp only [hmt, Bool.not_false, if_true]
    constructor
    · intro h
      exact absurd h (by simp)
    · rintro ⟨x, -, t, -, ht2, ht3⟩
      exact absurd ((hasMutexTag_iff p).mpr ⟨t, ht2, ht3⟩) hmt

theorem hasMutexConflict_of_no_tag {p : Perk} (h : hasMutexTag p = false)
    (picked : List Perk) : hasMutexConflict p picked = false := by
  simp [hasMutexConflict, h]

theorem hasMutexConflict_single_of_false {p a : Perk} {picked : List Perk}
    (ha : a ∈ picked) (h : hasMutexConflict p picked = false) :
    hasMutexConflict p [a] = false := by
  rw [Bool.eq_false_iff] at h ⊢
  intro hs
  apply h
  rw [hasMutexConflict_iff] at hs ⊢
  obtain ⟨x, hx, t, ht⟩ := hs
  simp only [List.mem_singleton] at hx
  exact ⟨x, hx ▸ ha, t, ht⟩

theorem hasMutexConflict_single_symm {a b : Perk} (hrole : a.role = b.role) :
    hasMutexConflict a [b] = hasMutexConflict b [a] := by
  rw [Bool.eq_iff_iff, hasMutexConflict_iff, hasMutexConflict_iff]
  constructor
  · rintro ⟨x, hx, t, ht1, ht2, ht3⟩
    simp only [List.mem_singleton] at hx
    subst hx
    exact ⟨a, List.mem_singleton_self a, t, ht2, ht1, hrole ▸ ht3⟩
  · rintro ⟨x, hx, t, ht1, ht2, ht3⟩
    simp only [List.mem_singleton] at hx
    subst hx
    exact ⟨b, List.mem_singleton_self b, t, ht2, ht1, hrole ▸ ht3⟩

/-! ### Bounds on the scoring components -/

theorem tagScore_nonneg (p : Perk) (tags : List String) : 0 ≤ tagScore p tags :=
  mul_nonneg (by norm_num) (Nat.cast_nonneg _)

theorem synScore_nonneg (p : Perk) (locked : List String) (current : List Perk) :
    0 ≤ synScore p locked current :=
  mul_nonneg (by norm_num) (Nat.cast_nonneg _)

theorem antiScore_ge (p : Perk) (current : List Perk) :
    -12 * (current.length : ℚ) ≤ antiScore p current := by
  unfold antiScore
  have h : (((current.map fun c => normalize c.name).filter
      (fun n => (p.anti_synergy.map normalize).contains n)).length : ℚ)
      ≤ (current.length : ℚ) := by
    have h2 := List.length_filter_le
      (fun n => (p.anti_synergy.map normalize).contains n)
      (current.map fun c => normalize c.name)
    simp only [List.length_map] at h2
    exact_mod_cast h2
  linarith

theorem antiScore_nonpos (p : Perk) (current : List Perk) :
    antiScore p current ≤ 0 := by
  unfold antiScore
  have h : (0 : ℚ) ≤ (((current.map fun c => normalize c.name).filter
      (fun n => (p.anti_synergy.map normalize).contains n)).length : ℚ) :=
    Nat.cast_nonneg _
  linarith

theorem mutexPenalty_ge (p : Perk) (current : List Perk) :
    -100 ≤ mutexPenalty p current := by
  unfold mutexPenalty
  split <;> norm_num

theorem mutexPenalty_nonpos (p : Perk) (current : List Perk) :
    mutexPenalty p current ≤ 0 := by
  unfold mutexPenalty
  split <;> norm_num

theorem TIER_lookup_cases {k : String} {v : ℚ} (h : TIER_BONUS.lookup k = some v) :
    -6 ≤ v ∧ v ≤ 10 := by
  simp only [TIER_BONUS, List.lookup] at h
  repeat' split at h
  all_goals try cases h
  all_goals norm_num

theorem tierBonus_bounds (p : Perk) : -6 ≤ tierBonus p ∧ tierBonus p ≤ 10 := by
  unfold tierBonus
  split
  · rename_i v hv
    exact TIER_lookup_cases hv
  · norm_num

theorem clamp_bounds (r : ℚ) : 0 ≤ clamp r 0 5 ∧ clamp r 0 5 ≤ 5 :=
  ⟨le_max_left 0 _, max_le (by norm_num) (min_le_left 5 r)⟩

theorem rateBonus_bounds (p : Perk) : -(15/2) ≤ rateBonus p ∧ rateBonus p ≤ 15/2 := by
  unfold rateBonus
  split
  · norm_num
  · rename_i r _
    have h := clamp_bounds r
    constructor <;> nlinarith [h.1, h.2]

theorem killerFocusBonus_nonneg (p : Perk) (slug : String) :
    0 ≤ killerFocusBonus p slug := by
  unfold killerFocusBonus
  split
  · norm_num
  · split
    · norm_num
    · exact le_max_left 0 _

theorem killerFocusBonus_le (p : Perk) (slug : String)
    (h : ∀ tf ∈ p.topForKillers, 1 ≤ tf.rank.getD 99) :
    killerFocusBonus p slug ≤ 14 := by
  unfold killerFocusBonus
  split
  · norm_num
  · split
    · norm_num
    · rename_i hit hf
      have hm := List.mem_of_find?_eq_some hf
      have h1 := h hit hm
      exact max_le (by norm_num) (by nlinarith)

theorem tieBreak_bounds (p : Perk) : 0 ≤ tieBreak p ∧ tieBreak p ≤ 1 := by
  unfold tieBreak
  have h1 : min 100 ((p.name.length : ℚ)) ≤ 100 := min_le_left _ _
  have h2 : (0 : ℚ) ≤ min 100 ((p.name.length : ℚ)) :=
    le_min (by norm_num) (Nat.cast_nonneg _)
  constructor
  · apply div_nonneg (by linarith) (by norm_num)
  · rw [div_le_one (by norm_num)]
    linarith

theorem scorePerk_eq (p : Perk) (ctx : ScoreCtx) (hrole : p.role = ctx.role)
    (hban : bannedMatch ctx.banned p.name p.id = false) :
    scorePerk p ctx = tagScore p ctx.tags + synScore p ctx.locked ctx.current
      + antiScore p ctx.current + mutexPenalty p ctx.current + tierBonus p + rateBonus p
      + killerFocusBonus p ctx.killerFocus + tieBreak p := by
  unfold scorePerk
  rw [if_neg (by simp [hrole]), if_neg (by simp [hban])]

theorem scorePerk_lb (p : Perk) (ctx : ScoreCtx) (hrole : p.role = ctx.role)
    (hban : bannedMatch ctx.banned p.name p.id = false)
    (hlen : ctx.current.length ≤ 3) :
    -9999 < scorePerk p ctx := by
  rw [scorePerk_eq p ctx hrole hban]
  have h1 := tagScore_nonneg p ctx.tags
  have h2 := synScore_nonneg p ctx.locked ctx.current
  have h3 := antiScore_ge p ctx.current
  have h4 := mutexPenalty_ge p ctx.current
  have h5 := (tierBonus_bounds p).1
  have h6 := (rateBonus_bounds p).1
  have h7 := killerFocusBonus_nonneg p ctx.killerFocus
  have h8 := (tieBreak_bounds p).1
  have h9 : ((ctx.current.length : ℚ)) ≤ 3 := by exact_mod_cast hlen
  linarith

/-! ### Lemmas about the greedy loop -/

theorem sortPool_perm (s : Settings) (chosen pool : List Perk) :
    (sortPool s chosen pool).Perm pool :=
  List.perm_insertionSort _ pool

theorem sortPool_ne_nil {s : Settings} {chosen pool : List Perk} (h : pool ≠ []) :
    sortPool s chosen pool ≠ [] := by
  intro he
  apply h
  have h2 := (sortPool_perm s chosen pool).length_eq
  rw [he] at h2
  exact List.length_eq_zero.mp h2.symm

theorem sortPool_head_max {s : Settings} {chosen pool : List Perk} {pick : Perk}
    {rest : List Perk} (h : sortPool s chosen pool = pick :: rest) :
    ∀ q ∈ pool, scorePerk q (scoreCtxOf s chosen) ≤ scorePerk pick (scoreCtxOf s chosen) := by
  intro q hq
  haveI ht : IsTotal Perk (fun a b =>
      scorePerk b (scoreCtxOf s chosen) ≤ scorePerk a (scoreCtxOf s chosen)) :=
    ⟨fun a b => le_total _ _⟩
  haveI htr : IsTrans Perk (fun a b =>
      scorePerk b (scoreCtxOf s chosen) ≤ scorePerk a (scoreCtxOf s chosen)) :=
    ⟨fun _ _ _ hab hbc => le_trans hbc hab⟩
  have hs := List.sorted_insertionSort (fun a b =>
      scorePerk b (scoreCtxOf s chosen) ≤ scorePerk a (scoreCtxOf s chosen)) pool
  unfold sortPool at h
  rw [h] at hs
  have hq2 : q ∈ pick :: rest := by
    rw [← h]
    exact ((List.perm_insertionSort _ pool).mem_iff).mpr hq
  rcases List.mem_cons.mp hq2 with rfl | hq3
  · exact le_refl _
  · exact List.rel_of_sorted_cons hs q hq3

theorem optimizeLoopFuel_stop {s : Settings} {n : Nat} {chosen pool : List Perk}
    (h : ¬(chosen.length < 4 ∧ pool ≠ [])) :
    optimizeLoopFuel s (n + 1) chosen pool = chosen := by
  simp only [optimizeLoopFuel]
  rw [if_neg h]

theorem optimizeLoopFuel_push {s : Settings} {n : Nat} {chosen pool pick : _}
    {rest : List Perk} (hc : chosen.length < 4 ∧ pool ≠ [])
    (hsort : sortPool s chosen pool = pick :: rest)
    (hsc : -9999 < scorePerk pick (scoreCtxOf s chosen)) :
    optimizeLoopFuel s (n + 1) chosen pool
      = optimizeLoopFuel s n (chosen ++ [pick]) rest := by
  simp only [optimizeLoopFuel]
  rw [if_pos hc, hsort]
  dsimp only
  rw [if_pos hsc]

theorem optimizeLoopFuel_skip {s : Settings} {n : Nat} {chosen pool pick : _}
    {rest : List Perk} (hc : chosen.length < 4 ∧ pool ≠ [])
    (hsort : sortPool s chosen pool = pick :: rest)
    (hsc : ¬(-9999 < scorePerk pick (scoreCtxOf s chosen))) :
    optimizeLoopFuel s (n + 1) chosen pool = optimizeLoopFuel s n chosen rest := by
  simp only [optimizeLoopFuel]
  rw [if_pos hc, hsort]
  dsimp only
  rw [if_neg hsc]

theorem optimizeLoopFuel_extends (s : Settings) (fuel : Nat) :
    ∀ chosen pool : List Perk,
      ∃ extra, optimizeLoopFuel s fuel chosen pool = chosen ++ extra ∧
        ∀ p ∈ extra, p ∈ pool := by
  induction fuel with
  | zero =>
    intro chosen pool
    exact ⟨[], by simp [optimizeLoopFuel], by simp⟩
  | succ n ih =>
    intro chosen pool
    by_cases hc : chosen.length < 4 ∧ pool ≠ []
    · rcases hsort : sortPool s chosen pool with _ | ⟨pick, rest⟩
      · exact absurd hsort (sortPool_ne_nil hc.2)
      · have hperm := sortPool_perm s chosen pool
        rw [hsort] at hperm
        have hpick : pick ∈ pool := hperm.mem_iff.mp (List.mem_cons_self _ _)
        have hrest : ∀ q ∈ rest, q ∈ pool := fun q hq =>
          hperm.mem_iff.mp (List.mem_cons_of_mem _ hq)
        by_cases hsc : -9999 < scorePerk pick (scoreCtxOf s chosen)
        · obtain ⟨extra, he, hm⟩ := ih (chosen ++ [pick]) rest
          refine ⟨pick :: extra, ?_, ?_⟩
          · rw [optimizeLoopFuel_push hc hsort hsc, he]
            simp
          · intro p hp
            rcases List.mem_cons.mp hp with rfl | h2
            · exact hpick
            · exact hrest p (hm p h2)
        · obtain ⟨extra, he, hm⟩ := ih chosen rest
          refine ⟨extra, ?_, fun p hp => hrest p (hm p hp)⟩
          rw [optimizeLoopFuel_skip hc hsort hsc, he]
    · exact ⟨[], by rw [optimizeLoopFuel_stop hc]; simp, by simp⟩

theorem optimizeLoop_extends (s : Settings) (chosen pool : List Perk) :
    ∃ extra, optimizeLoop s chosen pool = chosen ++ extra ∧ ∀ p ∈ extra, p ∈ pool :=
  optimizeLoopFuel_extends s pool.length chosen pool

theorem runOptimize_extends (perks : List Perk) (s : Settings) :
    ∃ extra, runOptimize perks s = ((lockedEff perks s).take 4 ++ extra).take 4 ∧
      ∀ p ∈ extra, p ∈ optimizePool perks s ((lockedEff perks s).take 4) := by
  unfold runOptimize
  by_cases h4 : 4 ≤ ((lockedEff perks s).take 4).length
  · refine ⟨[], ?_, by simp⟩
    rw [if_pos h4]
    simp [List.take_take]
  · obtain ⟨extra, he, hm⟩ := optimizeLoop_extends s ((lockedEff perks s).take 4)
      (optimizePool perks s ((lockedEff perks s).take 4))
    refine ⟨extra, ?_, hm⟩
    rw [if_neg h4]
    exact congrArg (List.take 4) he

/-! ### Lemmas about the random generator passes -/

theorem randFirstPass_nil (chosen : List Perk) : randFirstPass chosen [] = chosen := rfl

theorem randFirstPass_stop {chosen : List Perk} {p : Perk} {rest : List Perk}
    (h : 4 ≤ chosen.length) : randFirstPass chosen (p :: rest) = chosen := by
  simp only [randFirstPass]
  rw [if_pos h]

theorem randFirstPass_conflict {chosen : List Perk} {p : Perk} {rest : List Perk}
    (h4 : ¬ 4 ≤ chosen.length) (hm : hasMutexConflict p chosen = true) :
    randFirstPass chosen (p :: rest) = randFirstPass chosen rest := by
  simp only [randFirstPass]
  rw [if_neg h4, if_pos hm]

theorem randFirstPass_dup {chosen : List Perk} {p : Perk} {rest : List Perk}
    (h4 : ¬ 4 ≤ chosen.length) (hm : hasMutexConflict p chosen = false)
    (hd : chosen.any (fun c => normalize c.name == normalize p.name) = true) :
    randFirstPass chosen (p :: rest) = randFirstPass chosen rest := by
  simp only [randFirstPass]
  rw [if_neg h4, if_neg (by simp [hm]), if_pos hd]

theorem randFirstPass_push {chosen : List Perk} {p : Perk} {rest : List Perk}
    (h4 : ¬ 4 ≤ chosen.length) (hm : hasMutexConflict p chosen = false)
    (hd : chosen.any (fun c => normalize c.name == normalize p.name) = false) :
    randFirstPass chosen (p :: rest) = randFirstPass (chosen ++ [p]) rest := by
  simp only [randFirstPass]
  rw [if_neg h4, if_neg (by simp [hm]), if_neg (by simp [hd])]

theorem randSecondPass_nil (chosen : List Perk) : randSecondPass chosen [] = chosen := rfl

theorem randSecondPass_stop {chosen : List Perk} {p : Perk} {rest : List Perk}
    (h : 4 ≤ chosen.length) : randSecondPass chosen (p :: rest) = chosen := by
  simp only [randSecondPass]
  rw [if_pos h]

theorem randSecondPass_dup {chosen : List Perk} {p : Perk} {rest : List Perk}
    (h4 : ¬ 4 ≤ chosen.length)
    (hd : chosen.any (fun c => normalize c.name == normalize p.name) = true) :
    randSecondPass chosen (p :: rest) = randSecondPass chosen rest := by
  simp only [randSecondPass]
  rw [if_neg h4, if_pos hd]

theorem randSecondPass_push {chosen : List Perk} {p : Perk} {rest : List Perk}
    (h4 : ¬ 4 ≤ chosen.length)
    (hd : chosen.any (fun c => normalize c.name == normalize p.name) = false) :
    randSecondPass chosen (p :: rest) = randSecondPass (chosen ++ [p]) rest := by
  simp only [randSecondPass]
  rw [if_neg h4, if_neg (by simp [hd])]

theorem randFirstPass_extends (rnd : List Perk) :
    ∀ chosen, ∃ extra, randFirstPass chosen rnd = chosen ++ extra ∧
      ∀ p ∈ extra, p ∈ rnd := by
  induction rnd with
  | nil =>
    intro chosen
    exact ⟨[], by simp [randFirstPass_nil], by simp⟩
  | cons p rest ih =>
    intro chosen
    by_cases h4 : 4 ≤ chosen.length
    · exact ⟨[], by rw [randFirstPass_stop h4]; simp, by simp⟩
    · cases hm : hasMutexConflict p chosen with
      | true =>
        obtain ⟨extra, he, hmem⟩ := ih chosen
        exact ⟨extra, by rw [randFirstPass_conflict h4 hm, he],
          fun q hq => List.mem_cons_of_mem _ (hmem q hq)⟩
      | false =>
        cases hd : chosen.any (fun c => normalize c.name == normalize p.name) with
        | true =>
          obtain ⟨extra, he, hmem⟩ := ih chosen
          exact ⟨extra, by rw [randFirstPass_dup h4 hm hd, he],
            fun q hq => List.mem_cons_of_mem _ (hmem q hq)⟩
        | false =>
          obtain ⟨extra, he, hmem⟩ := ih (chosen ++ [p])
          refine ⟨p :: extra, by rw [randFirstPass_push h4 hm hd, he]; simp, ?_⟩
          intro q hq
          rcases List.mem_cons.mp hq with rfl | h2
          · exact List.mem_cons_self _ _
          · exact List.mem_cons_of_mem _ (hmem q h2)

theorem randSecondPass_extends (rnd : List Perk) :
    ∀ chosen, ∃ extra, randSecondPass chosen rnd = chosen ++ extra ∧
      ∀ p ∈ extra, p ∈ rnd := by
  induction rnd with
  | nil =>
    intro chosen
    exact ⟨[], by simp [randSecondPass_nil], by simp⟩
  | cons p rest ih =>
    intro chosen
    by_cases h4 : 4 ≤ chosen.length
    · exact ⟨[], by rw [randSecondPass_stop h4]; simp, by simp⟩
    · cases hd : chosen.any (fun c => normalize c.name == normalize p.name) with
      | true =>
        obtain ⟨extra, he, hmem⟩ := ih chosen
        exact ⟨extra, by rw [randSecondPass_dup h4 hd, he],
          fun q hq => List.mem_cons_of_mem _ (hmem q hq)⟩
      | false =>
        obtain ⟨extra, he, hmem⟩ := ih (chosen ++ [p])
        refine ⟨p :: extra, by rw [randSecondPass_push h4 hd, he]; simp, ?_⟩
        intro q hq
        rcases List.mem_cons.mp hq with rfl | h2
        · exact List.mem_cons_self _ _
        · exact List.mem_cons_of_mem _ (hmem q h2)

/-! ### Pairwise invariants preserved by the passes and by the greedy loop -/

theorem any_name_eq_false {chosen : List Perk} {p : Perk}
    (hd : chosen.any (fun c => normalize c.name == normalize p.name) = false) :
    ∀ c ∈ chosen, normalize c.name ≠ normalize p.name := by
  intro c hc
  simp only [List.any_eq_false, beq_iff_eq] at hd
  exact hd c hc

theorem pairwise_append_one {l : List Perk} {p : Perk} {R : Perk → Perk → Prop}
    (h : l.Pairwise R) (hp : ∀ a ∈ l, R a p) : (l ++ [p]).Pairwise R := by
  rw [List.pairwise_append]
  refine ⟨h, List.pairwise_singleton R p, ?_⟩
  intro a ha b hb
  rcases List.mem_singleton.mp hb with rfl
  exact hp a ha

theorem randFirstPass_pairwise {R : Perk → Perk → Prop}
    (hR : ∀ (chosen : List Perk) (p : Perk), hasMutexConflict p chosen = false →
      chosen.any (fun c => normalize c.name == normalize p.name) = false →
      ∀ a ∈ chosen, R a p) (rnd : List Perk) :
    ∀ chosen : List Perk, chosen.Pairwise R → (randFirstPass chosen rnd).Pairwise R := by
  induction rnd with
  | nil =>
    intro chosen h
    simpa [randFirstPass_nil] using h
  | cons p rest ih =>
    intro chosen h
    by_cases h4 : 4 ≤ chosen.length
    · rw [randFirstPass_stop h4]
      exact h
    · cases hm : hasMutexConflict p chosen with
      | true =>
        rw [randFirstPass_conflict h4 hm]
        exact ih chosen h
      | false =>
        cases hd : chosen.any (fun c => normalize c.name == normalize p.name) with
        | true =>
          rw [randFirstPass_dup h4 hm hd]
          exact ih chosen h
        | false =>
          rw [randFirstPass_push h4 hm hd]
          exact ih _ (pairwise_append_one h (hR chosen p hm hd))

theorem randSecondPass_pairwise {R : Perk → Perk → Prop}
    (hR : ∀ (chosen : List Perk) (p : Perk),
      chosen.any (fun c => normalize c.name == normalize p.name) = false →
      ∀ a ∈ chosen, R a p) (rnd : List Perk) :
    ∀ chosen : List Perk, chosen.Pairwise R → (randSecondPass chosen rnd).Pairwise R := by
  induction rnd with
  | nil =>
    intro chosen h
    simpa [randSecondPass_nil] using h
  | cons p rest ih =>
    intro chosen h
    by_cases h4 : 4 ≤ chosen.length
    · rw [randSecondPass_stop h4]
      exact h
    · cases hd : chosen.any (fun c => normalize c.name == normalize p.name) with
      | true =>
        rw [randSecondPass_dup h4 hd]
        exact ih chosen h
      | false =>
        rw [randSecondPass_push h4 hd]
        exact ih _ (pairwise_append_one h (hR chosen p hd))

theorem optimizeLoopFuel_pairwise_names (s : Settings) (fuel : Nat) :
    ∀ chosen pool : List Perk, chosen.Pairwise NameNe → pool.Pairwise NameNe →
      (∀ p ∈ pool, ∀ c ∈ chosen, normalize c.name ≠ normalize p.name) →
      (optimizeLoopFuel s fuel chosen pool).Pairwise NameNe := by
  induction fuel with
  | zero =>
    intro chosen pool h _ _
    exact h
  | succ n ih =>
    intro chosen pool hch hpool hdisj
    by_cases hc : chosen.length < 4 ∧ pool ≠ []
    · rcases hsort : sortPool s chosen pool with _ | ⟨pick, rest⟩
      · exact absurd hsort (sortPool_ne_nil hc.2)
      · have hperm := sortPool_perm s chosen pool
        rw [hsort] at hperm
        have hpr : (pick :: rest).Pairwise NameNe :=
          (List.Perm.pairwise_iff nameNe_symm hperm).mpr hpool
        obtain ⟨hpick1, hpick2⟩ := List.pairwise_cons.mp hpr
        have hpickpool : pick ∈ pool := hperm.mem_iff.mp (List.mem_cons_self _ _)
        have hrestpool : ∀ q ∈ rest, q ∈ pool := fun q hq =>
          hperm.mem_iff.mp (List.mem_cons_of_mem _ hq)
        have hdisj2 : ∀ q ∈ rest, ∀ c ∈ chosen ++ [pick],
            normalize c.name ≠ normalize q.name := by
          intro q hq c hcm
          rcases List.mem_append.mp hcm with h1 | h1
          · exact hdisj q (hrestpool q hq) c h1
          · rcases List.mem_singleton.mp h1 with rfl
            exact hpick1 q hq
        by_cases hsc : -9999 < scorePerk pick (scoreCtxOf s chosen)
        · rw [optimizeLoopFuel_push hc hsort hsc]
          refine ih _ rest ?_ hpick2 hdisj2
          exact pairwise_append_one hch (fun a ha => hdisj pick hpickpool a ha)
        · rw [optimizeLoopFuel_skip hc hsort hsc]
          exact ih chosen rest hch hpick2
            (fun q hq c hc2 => hdisj q (hrestpool q hq) c hc2)
    · rw [optimizeLoopFuel_stop hc]
      exact hch

/-! ### Length facts about the first random pass -/

theorem randFirstPass_length_le (rnd : List Perk) :
    ∀ chosen : List Perk, chosen.length ≤ 4 →
      (randFirstPass chosen rnd).length ≤ 4 := by
  induction rnd with
  | nil =>
    intro chosen h
    simpa [randFirstPass_nil] using h
  | cons p rest ih =>
    intro chosen h
    by_cases h4 : 4 ≤ chosen.length
    · rw [randFirstPass_stop h4]
      exact h
    · cases hm : hasMutexConflict p chosen with
      | true =>
        rw [randFirstPass_conflict h4 hm]
        exact ih chosen h
      | false =>
        cases hd : chosen.any (fun c => normalize c.name == normalize p.name) with
        | true =>
          rw [randFirstPass_dup h4 hm hd]
          exact ih chosen h
        | false =>
          rw [randFirstPass_push h4 hm hd]
          refine ih _ ?_
          simp only [List.length_append, List.length_singleton]
          omega

theorem randFirstPass_length_ge (rnd : List Perk) :
    ∀ chosen : List Perk, rnd.Pairwise NameNe →
      (∀ p ∈ rnd, ∀ c ∈ chosen, normalize c.name ≠ normalize p.name) →
      min 4 (chosen.length + (rnd.filter (fun p => !hasMutexTag p)).length)
        ≤ (randFirstPass chosen rnd).length := by
  induction rnd with
  | nil =>
    intro chosen _ _
    simp only [randFirstPass_nil, List.filter_nil, List.length_nil, Nat.add_zero]
    exact min_le_right _ _
  | cons p rest ih =>
    intro chosen hpw hdisj
    obtain ⟨hp1, hp2⟩ := List.pairwise_cons.mp hpw
    by_cases h4 : 4 ≤ chosen.length
    · rw [randFirstPass_stop h4]
      exact le_trans (min_le_left _ _) h4
    · cases hm : hasMutexConflict p chosen with
      | true =>
        have hmt : hasMutexTag p = true := by
          rcases Bool.eq_false_or_eq_true (hasMutexTag p) with ht | hf
          · exact ht
          · rw [hasMutexConflict_of_no_tag hf] at hm
            exact absurd hm (by simp)
        rw [randFirstPass_conflict h4 hm]
        have hih := ih chosen hp2
          (fun q hq c hc => hdisj q (List.mem_cons_of_mem _ hq) c hc)
        simpa [List.filter_cons, hmt] using hih
      | false =>
        cases hd : chosen.any (fun c => normalize c.name == normalize p.name) with
        | true =>
          exfalso
          simp only [List.any_eq_true, beq_iff_eq] at hd
          obtain ⟨c, hc, he⟩ := hd
          exact hdisj p (List.mem_cons_self _ _) c hc he
        | false =>
          rw [randFirstPass_push h4 hm hd]
          have hdisj2 : ∀ q ∈ rest, ∀ c ∈ chosen ++ [p],
              normalize c.name ≠ normalize q.name := by
            intro q hq c hcm
            rcases List.mem_append.mp hcm with h1 | h1
            · exact hdisj q (List.mem_cons_of_mem _ hq) c h1
            · rcases List.mem_singleton.mp h1 with rfl
              exact hp1 q hq
          have hih := ih (chosen ++ [p]) hp2 hdisj2
          simp only [List.length_append, List.length_singleton] at hih
          cases hmt : hasMutexTag p with
          | true =>
            have hflt : (List.filter (fun q => !hasMutexTag q) (p :: rest)).length
                = (List.filter (fun q => !hasMutexTag q) rest).length := by
              simp [List.filter_cons, hmt]
            rw [hflt]
            have hmono : min 4 (chosen.length
                  + (List.filter (fun q => !hasMutexTag q) rest).length)
                ≤ min 4 (chosen.length + 1
                  + (List.filter (fun q => !hasMutexTag q) rest).length) :=
              min_le_min (le_refl 4) (by omega)
            exact le_trans hmono hih
          | false =>
            have hlen : (List.filter (fun q => !hasMutexTag q) (p :: rest)).length
                = (List.filter (fun q => !hasMutexTag q) rest).length + 1 := by
              simp [List.filter_cons, hmt]
            rw [hlen]
            refine le_trans (le_of_eq ?_) hih
            omega

/-! ### Membership characterizations of the pools and results -/

theorem bannedMatch_eq_false_iff (banned : List String) (name id : String) :
    bannedMatch banned name id = false ↔
      ∀ b ∈ banned, normalize b ≠ normalize name ∧ normalize b ≠ normalize id := by
  simp [bannedMatch, not_or]

theorem lockedEff_spec {perks : List Perk} {s : Settings} {p : Perk}
    (h : p ∈ lockedEff perks s) :
    p ∈ perks ∧ lockedMatch s.locked p = true ∧
      bannedMatch s.banned p.name p.id = false := by
  have h2 := mem_of_mem_dedupeGo h
  have h3 := List.mem_filter.mp h2
  have h4 := h3.2
  simp only [Bool.and_eq_true, Bool.not_eq_true'] at h4
  exact ⟨h3.1, h4.1, h4.2⟩

theorem optimizePool_spec {perks : List Perk} {s : Settings} {chosen : List Perk}
    {p : Perk} (h : p ∈ optimizePool perks s chosen) :
    p ∈ perks ∧ p.role = s.role ∧ bannedMatch s.banned p.name p.id = false ∧
      ∀ c ∈ chosen, normalize c.name ≠ normalize p.name := by
  unfold optimizePool at h
  have h1 := List.mem_filter.mp h
  have h2 := List.mem_filter.mp h1.1
  have h3 := List.mem_filter.mp h2.1
  refine ⟨h3.1, by simpa using h3.2, by simpa using h1.2, ?_⟩
  have h4 := h2.2
  simp only [Bool.not_eq_true', List.any_eq_false, beq_iff_eq] at h4
  exact h4

theorem optimizePool_sublist (perks : List Perk) (s : Settings) (chosen : List Perk) :
    (optimizePool perks s chosen).Sublist perks :=
  List.Sublist.trans (List.filter_sublist _)
    (List.Sublist.trans (List.filter_sublist _) (List.filter_sublist _))

theorem randPool_spec {perks : List Perk} {role : Role} {banned : List String}
    {p : Perk} (h : p ∈ randPool perks role banned) :
    p ∈ perks ∧ p.role = role ∧ bannedMatch banned p.name p.id = false := by
  have h2 := mem_of_mem_dedupeGo h
  have h3 := List.mem_filter.mp h2
  have h4 := h3.2
  simp only [Bool.and_eq_true, beq_iff_eq, Bool.not_eq_true'] at h4
  exact ⟨h3.1, h4.1, h4.2⟩

theorem randPool_pairwise (perks : List Perk) (role : Role) (banned : List String) :
    (randPool perks role banned).Pairwise NameNe :=
  dedupeGo_pairwise [] _

theorem makeRandomBuildWith_eq (rnd : List Perk) :
    makeRandomBuildWith rnd
      = (if (randFirstPass [] rnd).length < 4
          then randSecondPass (randFirstPass [] rnd) rnd
          else randFirstPass [] rnd).take 4 := rfl

theorem mem_makeRandomBuildWith {rnd : List Perk} {p : Perk}
    (h : p ∈ makeRandomBuildWith rnd) : p ∈ rnd := by
  rw [makeRandomBuildWith_eq] at h
  have h2 := List.take_subset _ _ h
  obtain ⟨e1, he1, hm1⟩ := randFirstPass_extends rnd []
  simp only [List.nil_append] at he1
  split at h2
  · obtain ⟨e2, he2, hm2⟩ := randSecondPass_extends rnd (randFirstPass [] rnd)
    rw [he2] at h2
    rcases List.mem_append.mp h2 with h3 | h3
    · rw [he1] at h3
      exact hm1 p h3
    · exact hm2 p h3
  · rw [he1] at h2
    exact hm1 p h2

/-! ### The normalizer on inert characters -/

theorem normalizeChars_cons (c : Char) (rest : List Char) :
    normalizeChars (c :: rest)
      = ((jsLowerChar c).flatMap nfkdChar).filter (fun d => !isCombining d)
        ++ normalizeChars rest := by
  simp [normalizeChars, List.flatMap_cons, List.flatMap_append, List.filter_append]

theorem inert_block {xs : List Char} (h : xs.all inertChar = true) :
    (xs.flatMap nfkdChar).filter (fun d => !isCombining d) = xs := by
  induction xs with
  | nil => rfl
  | cons d rest ih =>
    simp only [List.all_cons, Bool.and_eq_true] at h
    have hd := h.1
    simp only [inertChar, Bool.and_eq_true, beq_iff_eq, Bool.not_eq_true'] at hd
    rw [List.flatMap_cons, List.filter_append, hd.1.2, ih h.2]
    simp [List.filter_cons, hd.2]

theorem inert_normalizeChars {l : List Char} (h : ∀ c ∈ l, inertChar c = true) :
    normalizeChars l = l := by
  induction l with
  | nil => rfl
  | cons c rest ih =>
    have hc := h c (List.mem_cons_self _ _)
    simp only [inertChar, Bool.and_eq_true, beq_iff_eq, Bool.not_eq_true'] at hc
    rw [normalizeChars_cons, hc.1.1]
    have h2 : ([c].flatMap nfkdChar) = [c] := by simp [hc.1.2]
    rw [h2, ih (fun d hd => h d (List.mem_cons_of_mem _ hd))]
    simp [List.filter_cons, hc.2]

theorem asciiInert :
    ∀ n : Nat, n < 128 → (jsLowerChar (Char.ofNat n)).all inertChar = true := by
  decide

theorem jsLower_all_inert {c : Char} (h : c.toNat < 128) :
    (jsLowerChar c).all inertChar = true := by
  have h2 := asciiInert c.toNat h
  rwa [Char.ofNat_toNat] at h2

theorem normalizeChars_ascii {l : List Char} (h : ∀ c ∈ l, c.toNat < 128) :
    ∀ d ∈ normalizeChars l, inertChar d = true := by
  induction l with
  | nil =>
    intro d hd
    cases hd
  | cons c rest ih =>
    intro d hd
    rw [normalizeChars_cons] at hd
    rcases List.mem_append.mp hd with h1 | h1
    · have hall := jsLower_all_inert (h c (List.mem_cons_self _ _))
      rw [inert_block hall] at h1
      exact List.all_eq_true.mp hall d h1
    · exact ih (fun e he => h e (List.mem_cons_of_mem _ he)) d h1

/-! ### Congruence of `scorePerk` in the rate field -/

theorem scorePerk_ext {p q : Perk} (hid : p.id = q.id) (hname : p.name = q.name)
    (hrole : p.role = q.role) (htags : p.tags = q.tags) (hsyn : p.synergy = q.synergy)
    (hanti : p.anti_synergy = q.anti_synergy) (htier : p.tier = q.tier)
    (htop : p.topForKillers = q.topForKillers) (hrb : rateBonus p = rateBonus q)
    (ctx : ScoreCtx) : scorePerk p ctx = scorePerk q ctx := by
  obtain ⟨i1, n1, r1, t1, s1, a1, ti1, ra1, to1⟩ := p
  obtain ⟨i2, n2, r2, t2, s2, a2, ti2, ra2, to2⟩ := q
  simp only at hid hname hrole htags hsyn hanti htier htop
  subst hid hname hrole htags hsyn hanti htier htop
  simp only [scorePerk, tagScore, synScore, antiScore, mutexPenalty, tierBonus,
    killerFocusBonus, tieBreak, hasMutexConflict, hasMutexTag]
  rw [hrb]

/-! ### Claims -/

/-- C4 (counterexample): the normalizer is not idempotent on every string. On the
single-character string `ℂ` (U+2102, DOUBLE-STRUCK CAPITAL C, no Unicode lowercase
mapping, NFKD decomposition `C`), one application yields `C` and a second application
yields `c`. -/
theorem C4_normalize_idempotent_counterexample :
    normalize (normalize "ℂ") ≠ normalize "ℂ" ∧ normalize "ℂ" = "C" ∧
      normalize (normalize "ℂ") = "c" := by
  with_unfolding_all decide

/-- C4 (amended): the normalizer `normalize` (lowercase, NFKD, strip the combining
marks U+0300-U+036F) is idempotent on every string all of whose characters are ASCII;
it is not idempotent on arbitrary Unicode strings (see the counterexample), because a
compatibility decomposition can surface an uppercase letter that only the second
application lowercases. -/
theorem C4_normalize_idempotent_amended (s : String)
    (h : ∀ c ∈ s.data, c.toNat < 128) :
    normalize (normalize s) = normalize s := by
  have h2 : normalize (normalize s) = ⟨normalizeChars (normalizeChars s.data)⟩ := rfl
  rw [h2]
  exact congrArg String.mk (inert_normalizeChars (normalizeChars_ascii h))

/-- C4 (witness): idempotence at the concrete ASCII string `AbC`. -/
theorem C4_normalize_idempotent_witness :
    normalize (normalize "AbC") = normalize "AbC" :=
  C4_normalize_idempotent_amended "AbC" (by decide)

/-- C2 (counterexample): `hasMutexConflict` does not require the two items to share a
role. A survivor perk tagged `exhaustion` conflicts with a killer perk tagged
`exhaustion`, although the roles differ — the claimed "only if `itemA.role ==
itemB.role`" direction fails. -/
theorem C2_conflicts_counterexample :
    hasMutexConflict mutexCexA [mutexCexB] = true ∧ mutexCexA.role ≠ mutexCexB.role := by
  with_unfolding_all decide

/-- C2 (amended): `hasMutexConflict itemA [itemB]` is true exactly when some
normalized tag lies in both items' normalized tag sets and in the normalized
`MUTEX_TAGS` set of `itemA`'s role. The role-equality conjunct of the original claim
is not checked by the code (only the candidate's own role selects the mutex set); in
particular two items holding two different mutex tags of the same role never
conflict, since a shared tag is required. -/
theorem C2_conflicts_amended (itemA itemB : Perk) :
    hasMutexConflict itemA [itemB] = true ↔
      ∃ t, t ∈ itemA.tags.map normalize ∧ t ∈ itemB.tags.map normalize ∧
        t ∈ (MUTEX_TAGS itemA.role).map normalize := by
  rw [hasMutexConflict_iff]
  constructor
  · rintro ⟨x, hx, t, ht1, ht2, ht3⟩
    rcases List.mem_singleton.mp hx with rfl
    exact ⟨t, ht2, ht1, ht3⟩
  · rintro ⟨t, h1, h2, h3⟩
    exact ⟨itemB, List.mem_singleton_self _, t, h2, h1, h3⟩

/-- C10: when `meta.rate` is a string, `getRate` replaces the first comma by a dot and
applies `parseFloat`; a finite parse gives exactly the numeric rate bonus
`(clamp(rate,0,5) - 2.5) * 3` (and the whole score equals the score of the same perk
with the parsed number as its rate), while a non-finite parse contributes exactly 0. -/
theorem C10_rate_parsing (p : Perk) (str : String) (h : p.rate = some (.str str)) :
    (∀ q : ℚ, jsParseFloatFinite (replaceCommaFirst str) = some q →
      rateBonus p = (clamp q 0 5 - 5/2) * 3 ∧
        ∀ ctx : ScoreCtx, scorePerk p ctx = scorePerk { p with rate := some (.num q) } ctx) ∧
    (jsParseFloatFinite (replaceCommaFirst str) = none → rateBonus p = 0) := by
  have hget : getRate p = jsParseFloatFinite (replaceCommaFirst str) := by
    unfold getRate
    rw [h]
  constructor
  · intro q hq
    have hr : getRate p = some q := hget.trans hq
    constructor
    · unfold rateBonus
      rw [hr]
    · intro ctx
      refine @scorePerk_ext p { p with rate := some (RateVal.num q) }
        rfl rfl rfl rfl rfl rfl rfl rfl ?_ ctx
      have h2 : getRate { p with rate := some (.num q) } = some q := rfl
      unfold rateBonus
      rw [hr, h2]
  · intro hq
    have hr : getRate p = none := hget.trans hq
    unfold rateBonus
    rw [hr]

/-- C10 (witness): the perk whose rate is the string `"3,5"` receives the rate bonus
`(3.5 - 2.5) * 3 = 3`. -/
theorem C10_rate_parsing_witness : rateBonus ratePerkW = 3 := by
  have h := (C10_rate_parsing ratePerkW "3,5" rfl).1 (7/2) (by with_unfolding_all decide)
  rw [h.1]
  with_unfolding_all decide

/-- C3 (counterexample): the positive components of `scorePerk` can reach +100. A
candidate matching ten desired tags already collects a +100 tag bonus, so the claimed
universal bound (and with it the "mutex penalty can never be outweighed" reading)
fails for contexts with enough desired tags. -/
theorem C3_positive_bound_counterexample :
    (100 : ℚ) ≤ posScore scoreCexPerk scoreCexCtx := by
  with_unfolding_all decide

/-- C3 (amended): the tier, rate, focus and tiebreak components are bounded by 10,
7.5, 14 (for focus rankings with ranks ≥ 1, the only shape the ingestion produces)
and 1; hence whenever the candidate matches at most 3 desired tags and at most 4
synergy names, the sum of all positive components stays below +100 (at most 94.5), so
a -100 mutex penalty dominates. With more tag or synergy matches the bound fails, as
the counterexample shows. -/
theorem C3_positive_bound_amended (p : Perk) (ctx : ScoreCtx)
    (htag : (ctx.tags.filter
      (fun t => (p.tags.map normalize).contains (normalize t))).length ≤ 3)
    (hsyn : ((ctx.locked.map normalize ++ ctx.current.map (fun c => normalize c.name)).filter
      (fun n => (p.synergy.map normalize).contains n)).length ≤ 4)
    (hrank : ∀ tf ∈ p.topForKillers, 1 ≤ tf.rank.getD 99) :
    posScore p ctx < 100 := by
  have h1 : tagScore p ctx.tags ≤ 30 := by
    unfold tagScore
    have h2 : ((ctx.tags.filter
        (fun t => (p.tags.map normalize).contains (normalize t))).length : ℚ) ≤ 3 := by
      exact_mod_cast htag
    linarith
  have h2 : synScore p ctx.locked ctx.current ≤ 32 := by
    unfold synScore
    have h3 : (((ctx.locked.map normalize
          ++ ctx.current.map (fun c => normalize c.name)).filter
        (fun n => (p.synergy.map normalize).contains n)).length : ℚ) ≤ 4 := by
      exact_mod_cast hsyn
    linarith
  have h3 := (tierBonus_bounds p).2
  have h4 := (rateBonus_bounds p).2
  have h5 := killerFocusBonus_le p ctx.killerFocus hrank
  have h6 := (tieBreak_bounds p).2
  unfold posScore
  linarith

/-- C3 (witness): the bound at the Scenario A candidate `Alpha` under the Scenario A
context (one tag match, no synergy matches, no focus ranking). -/
theorem C3_positive_bound_witness : posScore wAlpha (scoreCtxOf wSettings []) < 100 :=
  C3_positive_bound_amended wAlpha (scoreCtxOf wSettings [])
    (by with_unfolding_all decide) (by with_unfolding_all decide)
    (by with_unfolding_all decide)

/-- Helper for witnesses: a two-element list with distinct normalized names is
pairwise name-distinct. -/
theorem pairwise_nameNe_two {a b : Perk} (h : normalize a.name ≠ normalize b.name) :
    ([a, b]).Pairwise NameNe := by
  refine List.Pairwise.cons ?_ (List.pairwise_singleton _ _)
  intro c hc
  rcases List.mem_singleton.mp hc with rfl
  exact h

/-- C5: neither selector ever returns a banned item: for every entry of `bannedNames`,
its normalization differs from the normalized name and from the normalized id of every
item in the Build returned by `runOptimize` (selectBuild) and, for every shuffle
outcome, by `makeRandomBuild` (randomBuild). -/
theorem C5_ban_exclusion :
    (∀ (perks : List Perk) (s : Settings), ∀ p ∈ runOptimize perks s,
      ∀ b ∈ s.banned, normalize b ≠ normalize p.name ∧ normalize b ≠ normalize p.id) ∧
    (∀ (perks : List Perk) (role : Role) (banned : List String) (rnd : List Perk),
      rnd.Perm (randPool perks role banned) → ∀ p ∈ makeRandomBuildWith rnd,
      ∀ b ∈ banned, normalize b ≠ normalize p.name ∧ normalize b ≠ normalize p.id) := by
  constructor
  · intro perks s p hp
    rw [← bannedMatch_eq_false_iff]
    obtain ⟨extra, he, hm⟩ := runOptimize_extends perks s
    rw [he] at hp
    have hp2 := List.take_subset _ _ hp
    rcases List.mem_append.mp hp2 with h1 | h1
    · exact (lockedEff_spec (List.take_subset _ _ h1)).2.2
    · exact (optimizePool_spec (hm p h1)).2.2.1
  · intro perks role banned rnd hperm p hp
    rw [← bannedMatch_eq_false_iff]
    exact (randPool_spec (hperm.mem_iff.mp (mem_makeRandomBuildWith hp))).2.2

/-- C5 (witness): with `alpha` banned (Scenario B), the perk actually returned (`Beta`)
does not match the banned entry. -/
theorem C5_ban_exclusion_witness :
    normalize "alpha" ≠ normalize wBeta.name ∧ normalize "alpha" ≠ normalize wBeta.id :=
  C5_ban_exclusion.1 [wAlpha, wBeta] banWitSettings wBeta
    (by with_unfolding_all decide) "alpha" (by decide)

/-- C1 (counterexample): locked seeds are not filtered by role. Locking the killer perk
`Barbecue` (by id) while the selected role is `survivor` makes `runOptimize` return a
build containing a killer perk. -/
theorem C1_role_purity_counterexample :
    runOptimize [lockCexPerk] lockCexSettings = [lockCexPerk] ∧
      lockCexPerk.role ≠ lockCexSettings.role := by
  with_unfolding_all decide

/-- C1 (amended): every item of every `makeRandomBuild` outcome has the requested
role, and every item returned by `runOptimize` has `settings.role` provided every
non-banned catalog item matching a locked entry has that role (pool picks are always
role-pure; only locked seeds can violate role purity, as the counterexample shows). -/
theorem C1_role_purity_amended :
    (∀ (perks : List Perk) (role : Role) (banned : List String) (rnd : List Perk),
      rnd.Perm (randPool perks role banned) → ∀ p ∈ makeRandomBuildWith rnd,
        p.role = role) ∧
    (∀ (perks : List Perk) (s : Settings),
      (∀ p ∈ perks, lockedMatch s.locked p = true →
        bannedMatch s.banned p.name p.id = false → p.role = s.role) →
      ∀ p ∈ runOptimize perks s, p.role = s.role) := by
  constructor
  · intro perks role banned rnd hperm p hp
    exact (randPool_spec (hperm.mem_iff.mp (mem_makeRandomBuildWith hp))).2.1
  · intro perks s hlock p hp
    obtain ⟨extra, he, hm⟩ := runOptimize_extends perks s
    rw [he] at hp
    have hp2 := List.take_subset _ _ hp
    rcases List.mem_append.mp hp2 with h1 | h1
    · obtain ⟨hmem, hl, hb⟩ := lockedEff_spec (List.take_subset _ _ h1)
      exact hlock p hmem hl hb
    · exact (optimizePool_spec (hm p h1)).2.1

/-- C1 (witness): on a catalog with no cross-role locks, the returned item has the
selected role. -/
theorem C1_role_purity_witness : wAlpha.role = wSettings.role :=
  C1_role_purity_amended.2 [wAlpha] wSettings (by with_unfolding_all decide) wAlpha
    (by with_unfolding_all decide)

/-- C9 (counterexample): `runOptimize` does not deduplicate its candidate pool, so a
catalog containing `Alpha` and `ALPHA` (equal normalized names) yields a build with a
duplicated normalized name. -/
theorem C9_no_duplicates_counterexample :
    runOptimize [dupCexA, dupCexB] plainSettings = [dupCexA, dupCexB] ∧
      normalize dupCexA.name = normalize dupCexB.name := by
  with_unfolding_all decide

/-- C9 (amended): `makeRandomBuild` never returns two items with the same normalized
name (both passes skip duplicates), and `runOptimize` never does so provided the
catalog itself has pairwise distinct normalized names; on catalogs with
normalized-name duplicates the greedy pool can pick both copies, as the
counterexample shows. -/
theorem C9_no_duplicates_amended :
    (∀ rnd : List Perk, (makeRandomBuildWith rnd).Pairwise NameNe) ∧
    (∀ (perks : List Perk) (s : Settings), perks.Pairwise NameNe →
      (runOptimize perks s).Pairwise NameNe) := by
  constructor
  · intro rnd
    have h1 : (randFirstPass [] rnd).Pairwise NameNe :=
      randFirstPass_pairwise (fun chosen p _ hd a ha => any_name_eq_false hd a ha)
        rnd [] List.Pairwise.nil
    have h2 : (if (randFirstPass [] rnd).length < 4
        then randSecondPass (randFirstPass [] rnd) rnd
        else randFirstPass [] rnd).Pairwise NameNe := by
      split
      · exact randSecondPass_pairwise (fun chosen p hd a ha => any_name_eq_false hd a ha)
          rnd _ h1
      · exact h1
    rw [makeRandomBuildWith_eq]
    exact List.Pairwise.sublist (List.take_sublist _ _) h2
  · intro perks s hperks
    unfold runOptimize
    have hL : ((lockedEff perks s).take 4).Pairwise NameNe :=
      List.Pairwise.sublist (List.take_sublist _ _) (dedupeByName_pairwise _)
    by_cases h4 : 4 ≤ ((lockedEff perks s).take 4).length
    · rw [if_pos h4]
      exact List.Pairwise.sublist (List.take_sublist _ _) hL
    · rw [if_neg h4]
      refine List.Pairwise.sublist (List.take_sublist _ _) ?_
      apply optimizeLoopFuel_pairwise_names
      · exact hL
      · exact List.Pairwise.sublist (optimizePool_sublist perks s _) hperks
      · intro p hp c hc
        exact (optimizePool_spec hp).2.2.2 c hc

/-- C9 (witness): on a catalog with distinct normalized names, the greedy result is
pairwise name-distinct. -/
theorem C9_no_duplicates_witness :
    (runOptimize [wAlpha, wBeta] wSettings).Pairwise NameNe :=
  C9_no_duplicates_amended.2 [wAlpha, wBeta] wSettings
    (pairwise_nameNe_two (by with_unfolding_all decide))

/-- C7: lock inclusion for the greedy selector. (a) The result always extends the
deduplicated, 4-truncated effective locked seed; (b) with 4 or more distinct locked
items, the result is exactly the first 4 of them in catalog order (the rest are
silently dropped); (c) whenever at most 4 distinct normalized names are locked, every
non-banned catalog item matching a locked entry is represented in the result by an
item of the same normalized name. -/
theorem C7_lock_inclusion (perks : List Perk) (s : Settings) :
    (∃ extra, runOptimize perks s = ((lockedEff perks s).take 4 ++ extra).take 4) ∧
    (4 ≤ (lockedEff perks s).length → runOptimize perks s = (lockedEff perks s).take 4) ∧
    (∀ p ∈ perks, lockedMatch s.locked p = true →
      bannedMatch s.banned p.name p.id = false → (lockedEff perks s).length ≤ 4 →
      ∃ q ∈ runOptimize perks s, normalize q.name = normalize p.name) := by
  obtain ⟨extra, he, hm⟩ := runOptimize_extends perks s
  refine ⟨⟨extra, he⟩, ?_, ?_⟩
  · intro h4
    have hlen : ((lockedEff perks s).take 4).length = 4 := by
      rw [List.length_take]
      exact min_eq_left h4
    unfold runOptimize
    rw [if_pos (le_of_eq hlen.symm), List.take_take]
    simp
  · intro p hp hl hb h4
    have hpf : p ∈ perks.filter
        (fun r => lockedMatch s.locked r && !bannedMatch s.banned r.name r.id) := by
      rw [List.mem_filter]
      refine ⟨hp, by simp [hl, hb]⟩
    obtain ⟨q, hq, hqe⟩ := dedupeByName_name_complete hpf
    have hq4 : q ∈ (lockedEff perks s).take 4 := by
      rw [List.take_of_length_le h4]
      exact hq
    refine ⟨q, ?_, hqe⟩
    rw [he, List.take_append_eq_append_take, List.take_take]
    apply List.mem_append_left
    simpa using hq4

/-- C7 (witness): Scenario C, five locked survivor perks: the result is exactly the
first four locked items in catalog order. -/
theorem C7_lock_inclusion_witness :
    runOptimize [wAlpha, wBeta, wGamma, wDelta, wEps] lockFiveSettings
      = (lockedEff [wAlpha, wBeta, wGamma, wDelta, wEps] lockFiveSettings).take 4 :=
  (C7_lock_inclusion [wAlpha, wBeta, wGamma, wDelta, wEps] lockFiveSettings).2.1
    (by with_unfolding_all decide)

/-- C6: one iteration of the growth loop of `runOptimize`. When the build is not full
and the pool (role-pure and ban-free, as `runOptimize` constructs it) is nonempty, the
sorted pool starts with an item `pick` that belongs to the pool and whose score
against the current partial build is maximal among all remaining pool items; the loop
continues with `pick` appended to the build and removed from the pool (the remaining
`rest` together with `pick` is a permutation of the pool). -/
theorem C6_greedy_step (s : Settings) (chosen pool : List Perk)
    (hlen : chosen.length < 4) (hpool : pool ≠ [])
    (hp : ∀ p ∈ pool, p.role = s.role ∧ bannedMatch s.banned p.name p.id = false) :
    ∃ pick rest, sortPool s chosen pool = pick :: rest ∧ pick ∈ pool ∧
      (∀ q ∈ pool, scorePerk q (scoreCtxOf s chosen)
        ≤ scorePerk pick (scoreCtxOf s chosen)) ∧
      (pick :: rest).Perm pool ∧
      optimizeLoop s chosen pool = optimizeLoop s (chosen ++ [pick]) rest := by
  rcases hsort : sortPool s chosen pool with _ | ⟨pick, rest⟩
  · exact absurd hsort (sortPool_ne_nil hpool)
  · have hperm := sortPool_perm s chosen pool
    rw [hsort] at hperm
    have hpick : pick ∈ pool := hperm.mem_iff.mp (List.mem_cons_self _ _)
    have hmax := sortPool_head_max hsort
    have hsc : -9999 < scorePerk pick (scoreCtxOf s chosen) := by
      refine scorePerk_lb pick (scoreCtxOf s chosen) (hp pick hpick).1
        (hp pick hpick).2 ?_
      show chosen.length ≤ 3
      omega
    refine ⟨pick, rest, rfl, hpick, hmax, hperm, ?_⟩
    have hlen2 : pool.length = rest.length + 1 := by
      have h2 := hperm.length_eq
      simpa using h2.symm
    unfold optimizeLoop
    rw [hlen2]
    exact optimizeLoopFuel_push ⟨hlen, hpool⟩ hsort hsc

/-- C6 (witness): in Scenario A restricted to `Beta` and `Alpha`, the first iteration
picks `Alpha` (the maximal score) and continues on the pool without it. -/
theorem C6_greedy_step_witness :
    optimizeLoop wSettings [] [wBeta, wAlpha]
      = optimizeLoop wSettings [wAlpha] [wBeta] := by
  obtain ⟨pick, rest, hsort, -, -, -, heq⟩ :=
    C6_greedy_step wSettings [] [wBeta, wAlpha] (by decide) (by decide)
      (by with_unfolding_all decide)
  have h2 : sortPool wSettings [] [wBeta, wAlpha] = [wAlpha, wBeta] := by
    with_unfolding_all decide
  rw [h2] at hsort
  injection hsort with ha hb
  subst ha
  subst hb
  exact heq

/-- C8: whenever the non-banned, deduplicated pool of the requested role contains at
least 4 items free of mutex tags, every shuffle outcome makes the first pass of
`makeRandomBuild` fill all 4 slots (the fallback second pass is never used: the build
equals the first pass result), and the returned build is pairwise free of mutex
conflicts in both directions. -/
theorem C8_random_first_pass (perks : List Perk) (role : Role) (banned : List String)
    (rnd : List Perk) (hperm : rnd.Perm (randPool perks role banned))
    (hfree : 4 ≤ ((randPool perks role banned).filter
      (fun p => !hasMutexTag p)).length) :
    makeRandomBuildWith rnd = randFirstPass [] rnd ∧
    (makeRandomBuildWith rnd).length = 4 ∧
    (makeRandomBuildWith rnd).Pairwise
      (fun a b => hasMutexConflict a [b] = false ∧ hasMutexConflict b [a] = false) := by
  have hpw : rnd.Pairwise NameNe :=
    (List.Perm.pairwise_iff nameNe_symm hperm).mpr (randPool_pairwise perks role banned)
  have hflen : (rnd.filter (fun p => !hasMutexTag p)).length
      = ((randPool perks role banned).filter (fun p => !hasMutexTag p)).length :=
    (hperm.filter _).length_eq
  have hge := randFirstPass_length_ge rnd [] hpw (by intro p hp c hc; cases hc)
  have h4 : 4 ≤ (randFirstPass [] rnd).length := by
    rw [List.length_nil, Nat.zero_add, hflen] at hge
    calc 4 = min 4 ((randPool perks role banned).filter
          (fun p => !hasMutexTag p)).length := (min_eq_left hfree).symm
      _ ≤ _ := hge
  have hle := randFirstPass_length_le rnd [] (by simp)
  have hlen4 : (randFirstPass [] rnd).length = 4 := le_antisymm hle h4
  have hbuild : makeRandomBuildWith rnd = randFirstPass [] rnd := by
    rw [makeRandomBuildWith_eq, if_neg (by omega), List.take_of_length_le (by omega)]
  refine ⟨hbuild, by rw [hbuild]; exact hlen4, ?_⟩
  have hconf : (randFirstPass [] rnd).Pairwise
      (fun a b => hasMutexConflict b [a] = false) :=
    randFirstPass_pairwise
      (fun chosen p hm _ a ha => hasMutexConflict_single_of_false ha hm)
      rnd [] List.Pairwise.nil
  obtain ⟨e1, he1, hm1⟩ := randFirstPass_extends rnd []
  simp only [List.nil_append] at he1
  have hrole : ∀ a ∈ randFirstPass [] rnd, a.role = role := by
    intro a ha
    rw [he1] at ha
    exact (randPool_spec (hperm.mem_iff.mp (hm1 a ha))).2.1
  rw [hbuild]
  refine List.Pairwise.imp_of_mem ?_ hconf
  intro a b ha hb hr
  have hs := hasMutexConflict_single_symm ((hrole a ha).trans (hrole b hb).symm)
  exact ⟨by rw [hs]; exact hr, hr⟩

/-- C8 (witness): with four mutex-free survivor perks, a concrete shuffle outcome
fills all four slots. -/
theorem C8_random_first_pass_witness :
    (makeRandomBuildWith [wEps, wZeta, wAlpha, wBeta]).length = 4 :=
  (C8_random_first_pass [wAlpha, wBeta, wEps, wZeta] Role.survivor []
    [wEps, wZeta, wAlpha, wBeta] (by with_unfolding_all decide)
    (by with_unfolding_all decide)).2.1

end DBD
